import Mathlib

/-!
Shallow embedding of `snmpvlantrunk.py`, a codec between sets of VLAN ids
(integers 1..4094) and the space-separated hex octet strings used by SNMP
to describe VLAN trunk membership, split into four groups of 1024 bits.

Modelling conventions:
* Python integers that may be negative (VLAN ids, group numbers) are `Int`;
  the bitmask values are `Nat` (they start at 0 and only bitwise-or / and
  with non-negative values, so they are provably non-negative).
* Python strings are `List Char`.
* Functions that can raise `ValueError` return `Except String _`.
* Python's `bin`/`int(_, 2)` binary-string round trips are modelled with
  explicit bit lists (`natToBits`, `parseBin`).
-/

namespace SnmpVlanTrunk

/-- `MIN_VLAN` from the source. -/
def MIN_VLAN : Int := 1

/-- `MAX_VLAN` from the source. -/
def MAX_VLAN : Int := 4094

/-- `VLAN_GROUP_COUNT` from the source. -/
def VLAN_GROUP_COUNT : Nat := 4

/-- `VLAN_GROUP_SIZE` from the source. -/
def VLAN_GROUP_SIZE : Nat := 1024

/-- `BYTES_PER_GROUP = int(VLAN_GROUP_SIZE / 8)` from the source. -/
def BYTES_PER_GROUP : Nat := VLAN_GROUP_SIZE / 8

/-- The little-endian list of binary digits of `x`: the reverse of Python's
`bin(x).lstrip('0b')`, which is empty for `0` and has no leading zero. -/
def natToBits (x : Nat) : List Bool :=
  if h : x = 0 then [] else decide (x % 2 = 1) :: natToBits (x / 2)
decreasing_by exact Nat.div_lt_self (Nat.pos_of_ne_zero h) one_lt_two

/-- Value of a little-endian bit list (head is the least significant bit). -/
def bitsToNat (l : List Bool) : Nat :=
  l.foldr (fun b acc => (if b then 1 else 0) + 2 * acc) 0

/-- Value of a binary string read most-significant-digit first, as computed
by Python's `int(s, 2)`. -/
def parseBin (l : List Bool) : Nat :=
  l.foldl (fun acc b => 2 * acc + (if b then 1 else 0)) 0

/-- `reverse_bits` from the source: render `input_value` as a binary string,
left-pad with zeros to `bit_width` (`zfill` pads only when shorter), reverse
the string end to end, and parse it back as binary. -/
def reverse_bits (input_value : Nat) (bit_width : Nat) : Nat :=
  let bit_string := (natToBits input_value).reverse
  let padded_string := List.replicate (bit_width - bit_string.length) false ++ bit_string
  let reversed_bit_string := padded_string.reverse
  parseBin reversed_bit_string

/-- Character class `[0-9A-F]` of the wire-string pattern. -/
def isUpperHexDigit (c : Char) : Bool :=
  ('0' ≤ c && c ≤ '9') || ('A' ≤ c && c ≤ 'F')

/-- The repeated part `( [0-9A-F]{2}){n}` of the wire-string pattern:
`n` further two-digit tokens, each preceded by exactly one space, and then
the end of the input. -/
def restTokens : Nat → List Char → Bool
  | 0, s => s.isEmpty
  | n + 1, s =>
    match s with
    | c :: a :: b :: rest =>
      decide (c = ' ') && isUpperHexDigit a && isUpperHexDigit b && restTokens n rest
    | _ => false

/-- The full body `[0-9A-F]{2}( [0-9A-F]{2}){127}` of
`VLAN_TRUNK_STRING_REGEX` from the source. -/
def trunkStringBody (s : List Char) : Bool :=
  match s with
  | a :: b :: rest => isUpperHexDigit a && isUpperHexDigit b && restTokens (BYTES_PER_GROUP - 1) rest
  | _ => false

/-- `is_valid_vlan_trunk_string` from the source.  The pattern is anchored
with `^...$` and used with `re.match`; in Python (without `re.MULTILINE`)
`$` matches at the end of the string *or just before a newline at the end of
the string*, so the body followed by a single trailing `'\n'` is accepted
as well. -/
def is_valid_vlan_trunk_string (s : List Char) : Bool :=
  trunkStringBody s || (decide (s.getLast? = some '\n') && trunkStringBody s.dropLast)

/-- `validate_vlan` from the source. -/
def validate_vlan (vlan_id : Int) (safe : Bool := false) : Except String Bool :=
  if MIN_VLAN ≤ vlan_id ∧ vlan_id ≤ MAX_VLAN then .ok true
  else if safe then .ok false
  else .error "Unexpected value for vlan_id"

/-- The `while test_value > VLAN_GROUP_SIZE` loop of `group_for_vlan`.
Its argument is non-negative because the loop runs only after
`validate_vlan` has checked `vlan_id >= 1`, so we model it on `Nat`. -/
def groupLoop (test_value : Nat) (group : Nat) : Nat :=
  if test_value > VLAN_GROUP_SIZE then groupLoop (test_value - VLAN_GROUP_SIZE) (group + 1)
  else group
termination_by test_value
decreasing_by
  have : 0 < VLAN_GROUP_SIZE := by decide
  omega

/-- `group_for_vlan` from the source. -/
def group_for_vlan (vlan_id : Int) : Except String Int := do
  let _ ← validate_vlan vlan_id
  pure ((groupLoop vlan_id.toNat 0 : Nat) : Int)

/-- `vlan_in_group` from the source. -/
def vlan_in_group (vlan_id : Int) (group : Int) : Bool :=
  let result := vlan_id - (VLAN_GROUP_SIZE : Int) * group
  decide (0 ≤ result ∧ result ≤ (VLAN_GROUP_SIZE : Int))

/-- `vlan_bit` from the source.  The shift amount
`vlan_id - group * VLAN_GROUP_SIZE - 1` is non-negative for every id that
passes `validate_vlan` (proved below), so the `Int.toNat` is exact. -/
def vlan_bit (vlan_id : Int) : Except String Nat := do
  let _ ← validate_vlan vlan_id
  let group ← group_for_vlan vlan_id
  pure (1 <<< (vlan_id - group * (VLAN_GROUP_SIZE : Int) - 1).toNat)

/-- `bit_to_vlan` from the source.  `bit_value` is a mask fragment, hence a
`Nat`; the source's `bit_value < 0` branch cannot fire and is dropped.
`bin_string` is `bin(bit_value).lstrip('0b')` and `position` its length. -/
def bit_to_vlan (bit_value : Nat) (group : Int) : Except String Int :=
  if bit_value = 0 then .error "Got bit_value with no bits set!"
  else
    let bin_string := (natToBits bit_value).reverse
    if bin_string.count true > 1 then .error "Got bit_value with more than one bit set!"
    else .ok ((bin_string.length : Int) + (VLAN_GROUP_SIZE : Int) * group)

/-- The `for bit_value in range(VLAN_GROUP_SIZE)` loop of `bits_to_vlans`,
with the accumulated `vlan_list` explicit and any `ValueError` from
`bit_to_vlan` propagated. -/
def bitsToVlansLoop (bit_values : Nat) (group : Int) :
    List Nat → List Int → Except String (List Int)
  | [], vlan_list => .ok vlan_list
  | bit_value :: rest, vlan_list =>
    let check_value := (1 <<< bit_value) &&& bit_values
    if check_value ≠ 0 then
      match bit_to_vlan check_value group with
      | .error e => .error e
      | .ok v => bitsToVlansLoop bit_values group rest (vlan_list ++ [v])
    else bitsToVlansLoop bit_values group rest vlan_list

/-- `bits_to_vlans` from the source. -/
def bits_to_vlans (bit_values : Nat) (group : Int) : Except String (List Int) :=
  bitsToVlansLoop bit_values group (List.range VLAN_GROUP_SIZE) []

/-- Python whitespace characters relevant to `str.split()` (the validated
strings can only contain `' '` and `'\n'`, both covered here). -/
def pythonWhitespace (c : Char) : Bool :=
  c = ' ' || c = '\t' || c = '\n' || c = '\r' || c = Char.ofNat 11 || c = Char.ofNat 12

/-- `''.join(s.split())` from `add_vlan_trunk_string`: drop every
whitespace character. -/
def stripWhitespace (s : List Char) : List Char :=
  s.filter (fun c => !pythonWhitespace c)

/-- Value of one hexadecimal digit character, as in Python's `int(_, 16)`. -/
def hexDigitValue (c : Char) : Nat :=
  if '0' ≤ c ∧ c ≤ '9' then c.toNat - '0'.toNat
  else if 'A' ≤ c ∧ c ≤ 'F' then c.toNat - 'A'.toNat + 10
  else if 'a' ≤ c ∧ c ≤ 'f' then c.toNat - 'a'.toNat + 10
  else 0

/-- `int(s, 16)` on a string of hexadecimal digits. -/
def parseHex (s : List Char) : Nat :=
  s.foldl (fun acc c => 16 * acc + hexDigitValue c) 0

/-- The mask decoded from a wire string by `add_vlan_trunk_string`:
strip whitespace, parse the 256 hex digits, reverse the bit order. -/
def decodeTrunkString (s : List Char) : Nat :=
  reverse_bits (parseHex (stripWhitespace s)) VLAN_GROUP_SIZE

/-- The sixteen uppercase hexadecimal digits, as in `bytes.hex().upper()`. -/
def HEX_DIGITS : List Char :=
  ['0', '1', '2', '3', '4', '5', '6', '7', '8', '9', 'A', 'B', 'C', 'D', 'E', 'F']

/-- Uppercase hexadecimal digit character of a value below 16. -/
def natToHexChar (n : Nat) : Char := HEX_DIGITS.getD n '0'

/-- The two uppercase hex characters of one byte: `to_bytes(...).hex().upper()`
rendered per byte (the source splits the hex string back into byte pairs by
striding, which yields exactly the per-byte pairs). -/
def byteToHexPair (b : Nat) : List Char :=
  [natToHexChar (b / 16), natToHexChar (b % 16)]

/-- `x.to_bytes(n, 'big')` as a list of byte values, most significant first. -/
def toBytesBE (x : Nat) (n : Nat) : List Nat :=
  (List.range n).map (fun i => x / 2 ^ (8 * (n - 1 - i)) % 256)

/-- `' '.join(hex_list)` from `get_vlan_trunk_string`. -/
def joinWithSpaces (l : List (List Char)) : List Char :=
  (l.intersperse [' ']).flatten

/-- The state of the `VlanTrunkModeList` class: the group id `_group` and
the integer mask `_value` (exposed as the `group` and `value` properties). -/
structure VlanTrunkModeList where
  group : Int
  value : Nat
deriving Repr, DecidableEq

/-- `VlanTrunkModeList.__init__`: the mask starts at zero. -/
def VlanTrunkModeList.mk0 (group : Int) : VlanTrunkModeList :=
  { group := group, value := 0 }

/-- `VlanTrunkModeList.add_vlan` from the source. -/
def VlanTrunkModeList.add_vlan (self : VlanTrunkModeList) (vlan_id : Int) :
    Except String VlanTrunkModeList :=
  if vlan_in_group vlan_id self.group then do
    let bit ← vlan_bit vlan_id
    pure { self with value := self.value ||| bit }
  else .error "VLAN is not part of group"

/-- `VlanTrunkModeList.add_vlan_trunk_string` from the source. -/
def VlanTrunkModeList.add_vlan_trunk_string (self : VlanTrunkModeList)
    (vlan_string : List Char) : Except String VlanTrunkModeList :=
  if is_valid_vlan_trunk_string vlan_string then
    .ok { self with value := self.value ||| decodeTrunkString vlan_string }
  else .error "Unexpected value for vlan_string"

/-- `VlanTrunkModeList.get_vlan_trunk_string` from the source. -/
def VlanTrunkModeList.get_vlan_trunk_string (self : VlanTrunkModeList) : List Char :=
  joinWithSpaces
    ((toBytesBE (reverse_bits self.value VLAN_GROUP_SIZE) BYTES_PER_GROUP).map byteToHexPair)

/-- `VlanTrunkModeList.has_vlan` from the source. -/
def VlanTrunkModeList.has_vlan (self : VlanTrunkModeList) (vlan_id : Int) :
    Except String Bool := do
  let bit ← vlan_bit vlan_id
  pure (decide (bit &&& self.value ≠ 0))

/-- The `vlans` property from the source. -/
def VlanTrunkModeList.vlans (self : VlanTrunkModeList) : Except String (List Int) :=
  bits_to_vlans self.value self.group

/-- `VlanTrunkModeList.remove_vlan` from the source.  `Nat.ldiff` is the
non-negative reading of Python's `self._value &= ~vlan_bit(vlan_id)`:
bitwise and-with-complement. -/
def VlanTrunkModeList.remove_vlan (self : VlanTrunkModeList) (vlan_id : Int) :
    Except String VlanTrunkModeList :=
  if vlan_in_group vlan_id self.group then do
    let bit ← vlan_bit vlan_id
    pure { self with value := Nat.ldiff self.value bit }
  else pure self

/-- Folding `add_vlan` over a list of VLAN ids (one `add_vlan` call per
element, left to right), stopping at the first error. -/
def addVlanList (self : VlanTrunkModeList) : List Int → Except String VlanTrunkModeList
  | [] => .ok self
  | v :: rest =>
    match self.add_vlan v with
    | .error e => .error e
    | .ok st => addVlanList st rest

/-- The bitmask a list of VLAN ids canonically belonging to one group
contributes: the bitwise or of `2 ^ ((v - 1) % 1024)` over the list. -/
def maskOfList (l : List Int) : Nat :=
  l.foldr (fun v acc => 2 ^ ((v.toNat - 1) % 1024) ||| acc) 0

/-- The characters of a token list rendered with one leading space per
token, i.e. the tail of a wire string after its first token. -/
def sepChars (tokens : List (List Char)) : List Char :=
  (tokens.map (fun q => ' ' :: q)).flatten

/-- A two-character uppercase-hex token. -/
def hexPairShape (q : List Char) : Prop :=
  ∃ c d, q = [c, d] ∧ isUpperHexDigit c = true ∧ isUpperHexDigit d = true

/-- A well-formed token decomposition of a wire string: 128 two-character
uppercase-hex tokens. -/
def wireTokens (tokens : List (List Char)) : Prop :=
  tokens.length = BYTES_PER_GROUP ∧ ∀ q ∈ tokens, hexPairShape q

/-- The all-zero wire string `"00 00 ... 00"` (128 tokens). -/
def zeroWireString : List Char :=
  joinWithSpaces (List.replicate BYTES_PER_GROUP ['0', '0'])

/-! ### Bit-list infrastructure lemmas -/

theorem natToBits_zero : natToBits 0 = [] := by
  rw [natToBits]; rfl

theorem natToBits_of_ne_zero {x : Nat} (h : x ≠ 0) :
    natToBits x = decide (x % 2 = 1) :: natToBits (x / 2) := by
  rw [natToBits]
  simp [h]

theorem natToBits_getD (x : Nat) : ∀ i : Nat, (natToBits x).getD i false = x.testBit i := by
  induction x using Nat.strong_induction_on with
  | _ x ih =>
    intro i
    by_cases hx : x = 0
    · subst hx
      simp [natToBits_zero, Nat.zero_testBit]
    · rw [natToBits_of_ne_zero hx]
      cases i with
      | zero => simp [Nat.testBit_zero]
      | succ i =>
        have hlt : x / 2 < x := Nat.div_lt_self (Nat.pos_of_ne_zero hx) one_lt_two
        simp only [List.getD_cons_succ]
        rw [ih _ hlt i, Nat.testBit_add_one]

theorem testBit_eq_false_of_natToBits_length {x i : Nat}
    (h : (natToBits x).length ≤ i) : x.testBit i = false := by
  rw [← natToBits_getD]
  exact List.getD_eq_default _ _ h

theorem natToBits_length_le {x w : Nat} (h : x < 2 ^ w) : (natToBits x).length ≤ w := by
  induction x using Nat.strong_induction_on generalizing w with
  | _ x ih =>
    by_cases hx : x = 0
    · subst hx; simp [natToBits_zero]
    · rw [natToBits_of_ne_zero hx]
      cases w with
      | zero =>
        exact absurd h (by simp; omega)
      | succ w =>
        have hlt : x / 2 < x := Nat.div_lt_self (Nat.pos_of_ne_zero hx) one_lt_two
        have hdiv : x / 2 < 2 ^ w := by
          rw [Nat.div_lt_iff_lt_mul (by norm_num)]
          calc x < 2 ^ (w + 1) := h
            _ = 2 ^ w * 2 := by rw [Nat.pow_succ]
        simpa using ih _ hlt hdiv

theorem natToBits_two_pow (k : Nat) :
    natToBits (2 ^ k) = List.replicate k false ++ [true] := by
  induction k with
  | zero => rw [natToBits_of_ne_zero (by norm_num)]; simp [natToBits_zero]
  | succ k ih =>
    have hne : (2 : Nat) ^ (k + 1) ≠ 0 := by positivity
    rw [natToBits_of_ne_zero hne]
    have h2 : 2 ^ (k + 1) % 2 = 0 := by
      simp [Nat.pow_succ, Nat.mul_mod_left]
    have h3 : 2 ^ (k + 1) / 2 = 2 ^ k := by
      rw [Nat.pow_succ, Nat.mul_div_cancel]; norm_num
    rw [h2, h3, ih]
    simp [List.replicate_succ]

theorem bitsToNat_nil : bitsToNat [] = 0 := rfl

theorem bitsToNat_cons (b : Bool) (l : List Bool) :
    bitsToNat (b :: l) = (if b then 1 else 0) + 2 * bitsToNat l := rfl

theorem bitsToNat_testBit (l : List Bool) : ∀ i : Nat, (bitsToNat l).testBit i = l.getD i false := by
  induction l with
  | nil => intro i; simp [bitsToNat_nil, Nat.zero_testBit]
  | cons b t ih =>
    intro i
    cases i with
    | zero =>
      rw [bitsToNat_cons, Nat.testBit_zero]
      cases b <;> simp [Nat.add_mul_mod_self_left]
    | succ i =>
      rw [bitsToNat_cons, Nat.testBit_add_one]
      have : ((if b then 1 else 0) + 2 * bitsToNat t) / 2 = bitsToNat t := by
        cases b <;> simp [Nat.add_mul_div_left, Nat.mul_div_cancel_left]
      rw [this, ih]
      simp

theorem bitsToNat_lt (l : List Bool) : bitsToNat l < 2 ^ l.length := by
  induction l with
  | nil => simp [bitsToNat_nil]
  | cons b t ih =>
    rw [bitsToNat_cons]
    have : 2 ^ (b :: t).length = 2 * 2 ^ t.length := by
      simp [List.length_cons, Nat.pow_succ, Nat.mul_comm]
    rw [this]
    cases b <;> simp <;> omega

theorem bitsToNat_append (l₁ l₂ : List Bool) :
    bitsToNat (l₁ ++ l₂) = bitsToNat l₁ + 2 ^ l₁.length * bitsToNat l₂ := by
  induction l₁ with
  | nil => simp [bitsToNat_nil]
  | cons b t ih =>
    simp only [List.cons_append, bitsToNat_cons, ih, List.length_cons]
    ring

theorem bitsToNat_replicate_false (k : Nat) : bitsToNat (List.replicate k false) = 0 := by
  induction k with
  | zero => rfl
  | succ k ih => simp [List.replicate_succ, bitsToNat_cons, ih]

theorem parseBin_eq_bitsToNat (l : List Bool) : parseBin l = bitsToNat l.reverse := by
  induction l using List.reverseRecOn with
  | nil => rfl
  | append_singleton t b ih =>
    rw [parseBin, List.foldl_append]
    simp only [List.foldl_cons, List.foldl_nil]
    rw [← parseBin, ih, List.reverse_append]
    simp only [List.reverse_cons, List.reverse_nil, List.nil_append, List.singleton_append,
      bitsToNat_cons]
    omega

/-- `reverse_bits` rewritten as the little-endian value of the padded,
reversed bit string. -/
theorem reverse_bits_eq (x w : Nat) :
    reverse_bits x w =
      bitsToNat (List.replicate (w - (natToBits x).length) false ++ (natToBits x).reverse) := by
  unfold reverse_bits
  rw [parseBin_eq_bitsToNat, List.reverse_reverse, List.length_reverse]

theorem getD_replicate_false (k i : Nat) :
    (List.replicate k false).getD i false = false := by
  rcases Nat.lt_or_ge i k with h | h
  · rw [List.getD_eq_getElem _ _ (by simpa using h)]
    simp
  · exact List.getD_eq_default _ _ (by simpa using h)

theorem reverse_bits_testBit {x w : Nat} (hx : x < 2 ^ w) (i : Nat) :
    (reverse_bits x w).testBit i = if i < w then x.testBit (w - 1 - i) else false := by
  have hn : (natToBits x).length ≤ w := natToBits_length_le hx
  set n := (natToBits x).length with hn_def
  set k := w - n with hk_def
  have hkn : k + n = w := by omega
  have hrevlen : (natToBits x).reverse.length = n := by simp [hn_def]
  rw [reverse_bits_eq, bitsToNat_testBit, ← hn_def, ← hk_def]
  rcases Nat.lt_or_ge i k with hik | hik
  · -- inside the zero padding: the corresponding source bit is above the MSB
    rw [List.getD_append _ _ _ _ (by simpa using hik), getD_replicate_false]
    have hiw : i < w := by omega
    have hbit : x.testBit (w - 1 - i) = false := by
      apply testBit_eq_false_of_natToBits_length
      omega
    simp [hiw, hbit]
  · rcases Nat.lt_or_ge i w with hiw | hiw
    · -- inside the reversed significant bits
      have hsub : i - k < (natToBits x).reverse.length := by omega
      rw [List.getD_append_right _ _ _ _ (by simpa using hik), List.length_replicate,
        List.getD_eq_getElem _ _ hsub, List.getElem_reverse,
        ← List.getD_eq_getElem _ false, natToBits_getD]
      have harith : (natToBits x).length - 1 - (i - k) = w - 1 - i := by
        rw [← hn_def]
        omega
      rw [harith, if_pos hiw]
    · -- beyond the width: everything is false
      have hlen : (List.replicate k false ++ (natToBits x).reverse).length ≤ i := by
        simp only [List.length_append, List.length_replicate, hrevlen]
        omega
      rw [List.getD_eq_default _ _ hlen, if_neg (Nat.not_lt.mpr hiw)]

theorem reverse_bits_lt {x w : Nat} (hx : x < 2 ^ w) : reverse_bits x w < 2 ^ w := by
  have hn : (natToBits x).length ≤ w := natToBits_length_le hx
  rw [reverse_bits_eq]
  have := bitsToNat_lt (List.replicate (w - (natToBits x).length) false ++ (natToBits x).reverse)
  have hlen : (List.replicate (w - (natToBits x).length) false ++ (natToBits x).reverse).length = w := by
    simp; omega
  rwa [hlen] at this

/-- The whole-field bit reversal is self-inverse below `2 ^ w`. -/
theorem reverse_bits_involution {x w : Nat} (hx : x < 2 ^ w) :
    reverse_bits (reverse_bits x w) w = x := by
  apply Nat.eq_of_testBit_eq
  intro i
  rw [reverse_bits_testBit (reverse_bits_lt hx) i]
  rcases Nat.lt_or_ge i w with hiw | hiw
  · rw [if_pos hiw, reverse_bits_testBit hx (w - 1 - i)]
    have h1 : w - 1 - i < w := by omega
    have h2 : w - 1 - (w - 1 - i) = i := by omega
    rw [if_pos h1, h2]
  · rw [if_neg (Nat.not_lt.mpr hiw)]
    exact (Nat.testBit_lt_two_pow (Nat.lt_of_lt_of_le hx (Nat.pow_le_pow_right (by norm_num) hiw))).symm

/-! ### Group partitioning characterizations -/

theorem groupLoop_eq (t : Nat) : ∀ g : Nat, groupLoop t g = g + (t - 1) / VLAN_GROUP_SIZE := by
  induction t using Nat.strong_induction_on with
  | _ t ih =>
    intro g
    rw [groupLoop]
    by_cases h : t > VLAN_GROUP_SIZE
    · rw [if_pos h]
      have hlt : t - VLAN_GROUP_SIZE < t := by
        have : 0 < VLAN_GROUP_SIZE := by decide
        omega
      rw [ih _ hlt]
      have hgs : VLAN_GROUP_SIZE = 1024 := rfl
      rw [hgs] at h ⊢
      have : t - 1 = (t - 1024 - 1) + 1024 := by omega
      rw [this, Nat.add_div_right _ (by norm_num)]
      omega
    · rw [if_neg h]
      have hgs : VLAN_GROUP_SIZE = 1024 := rfl
      rw [hgs] at h ⊢
      have : (t - 1) / 1024 = 0 := Nat.div_eq_of_lt (by omega)
      omega

theorem validate_vlan_ok {v : Int} (h1 : 1 ≤ v) (h2 : v ≤ 4094) :
    validate_vlan v = .ok true := by
  rw [validate_vlan]
  rw [if_pos]
  exact ⟨h1, h2⟩

theorem validate_vlan_error {v : Int} (h : ¬(1 ≤ v ∧ v ≤ 4094)) :
    validate_vlan v = .error "Unexpected value for vlan_id" := by
  have hM : MIN_VLAN = (1 : Int) := rfl
  have hX : MAX_VLAN = (4094 : Int) := rfl
  rw [validate_vlan, hM, hX, if_neg h]
  rfl

theorem group_for_vlan_eq {v : Int} (h1 : 1 ≤ v) (h2 : v ≤ 4094) :
    group_for_vlan v = .ok (((v.toNat - 1) / 1024 : Nat) : Int) := by
  rw [group_for_vlan, validate_vlan_ok h1 h2]
  show Except.ok _ = _
  rw [groupLoop_eq]
  simp [VLAN_GROUP_SIZE]

theorem group_for_vlan_ok_iff {v g : Int} :
    group_for_vlan v = .ok g ↔ 1 ≤ v ∧ v ≤ 4094 ∧ g = (((v.toNat - 1) / 1024 : Nat) : Int) := by
  constructor
  · intro h
    by_cases hr : 1 ≤ v ∧ v ≤ 4094
    · rw [group_for_vlan_eq hr.1 hr.2] at h
      injection h with h
      exact ⟨hr.1, hr.2, h.symm⟩
    · rw [group_for_vlan, validate_vlan_error hr] at h
      simp only [Bind.bind, Except.bind] at h
      exact Except.noConfusion h
  · rintro ⟨h1, h2, rfl⟩
    exact group_for_vlan_eq h1 h2

/-- The canonical group of a valid VLAN id lies in `{0, 1, 2, 3}`. -/
theorem group_index_le {v : Int} (h1 : 1 ≤ v) (h2 : v ≤ 4094) :
    (v.toNat - 1) / 1024 ≤ 3 := by
  have hv : v.toNat ≤ 4094 := by omega
  omega

theorem vlan_in_group_iff {v g : Int} :
    vlan_in_group v g = true ↔ 1024 * g ≤ v ∧ v ≤ 1024 * g + 1024 := by
  rw [vlan_in_group]
  have hgs : (VLAN_GROUP_SIZE : Int) = 1024 := rfl
  simp only [hgs, decide_eq_true_eq]
  omega

theorem vlan_bit_eq {v : Int} (h1 : 1 ≤ v) (h2 : v ≤ 4094) :
    vlan_bit v = .ok (2 ^ ((v.toNat - 1) % 1024)) := by
  rw [vlan_bit, validate_vlan_ok h1 h2]
  show (group_for_vlan v).bind _ = _
  rw [group_for_vlan_eq h1 h2]
  show Except.ok (1 <<< _) = _
  congr 1
  rw [Nat.shiftLeft_eq, Nat.one_mul]
  congr 1
  have hgs : (VLAN_GROUP_SIZE : Int) = 1024 := rfl
  rw [hgs]
  have hn : v.toNat ≥ 1 := by omega
  have hmod := Nat.div_add_mod (v.toNat - 1) 1024
  have hv : v = (v.toNat : Int) := by omega
  omega

/-- `bit_to_vlan` on a single set bit recovers `index + 1 + 1024 * group`. -/
theorem bit_to_vlan_two_pow (k : Nat) (g : Int) :
    bit_to_vlan (2 ^ k) g = .ok ((k : Int) + 1 + 1024 * g) := by
  have hne : (2 : Nat) ^ k ≠ 0 := by positivity
  have hcount : ((List.replicate k false ++ [true]).reverse.count true) = 1 := by
    simp [List.count_replicate]
  have hlen : ((List.replicate k false ++ [true]).reverse.length) = k + 1 := by
    simp
  have hgs : (VLAN_GROUP_SIZE : Int) = 1024 := rfl
  rw [bit_to_vlan, if_neg hne]
  simp only [natToBits_two_pow, hcount, hlen, hgs]
  push_cast
  ring_nf

/-- `(1 <<< b) &&& m` is `2 ^ b` when bit `b` of `m` is set and `0` otherwise. -/
theorem shift_and_eq (b m : Nat) :
    (1 <<< b) &&& m = if m.testBit b then 2 ^ b else 0 := by
  apply Nat.eq_of_testBit_eq
  intro i
  rw [Nat.testBit_and, Nat.shiftLeft_eq, Nat.one_mul, Nat.testBit_two_pow]
  by_cases hb : m.testBit b
  · rw [if_pos hb, Nat.testBit_two_pow]
    by_cases hib : b = i
    · subst hib; simp [hb]
    · simp [hib]
  · rw [if_neg hb, Nat.zero_testBit]
    by_cases hib : b = i
    · subst hib; simp [hb]
    · simp [hib]

theorem bitsToVlansLoop_eq (m : Nat) (g : Int) (l : List Nat) :
    ∀ acc : List Int,
      bitsToVlansLoop m g l acc =
        .ok (acc ++ ((l.filter (fun b => m.testBit b)).map
          (fun (b : Nat) => ((b : Int) + 1 + 1024 * g)))) := by
  induction l with
  | nil =>
    intro acc
    simp [bitsToVlansLoop]
  | cons b t ih =>
    intro acc
    rw [bitsToVlansLoop]
    simp only [shift_and_eq]
    by_cases hb : m.testBit b
    · have hne : (2 : Nat) ^ b ≠ 0 := by positivity
      rw [if_pos hb, if_pos hne, bit_to_vlan_two_pow]
      show bitsToVlansLoop m g t (acc ++ [(b : Int) + 1 + 1024 * g]) = _
      rw [ih]
      simp [hb]
    · rw [if_neg hb, if_neg (by simp), ih]
      simp [hb]

/-- `bits_to_vlans` enumerates the set bits in ascending order and maps each
index `b` to the VLAN id `b + 1 + 1024 * group`. -/
theorem bits_to_vlans_eq (m : Nat) (g : Int) :
    bits_to_vlans m g =
      .ok (((List.range 1024).filter (fun b => m.testBit b)).map
        (fun (b : Nat) => ((b : Int) + 1 + 1024 * g))) := by
  rw [bits_to_vlans]
  have hgs : VLAN_GROUP_SIZE = 1024 := rfl
  rw [hgs, bitsToVlansLoop_eq]
  simp

/-! ### Hex character facts -/

theorem hexDigitValue_natToHexChar : ∀ d : Nat, d < 16 → hexDigitValue (natToHexChar d) = d := by
  decide

theorem isUpperHexDigit_natToHexChar : ∀ d : Nat, d < 16 → isUpperHexDigit (natToHexChar d) = true := by
  decide

theorem not_whitespace_natToHexChar : ∀ d : Nat, d < 16 → pythonWhitespace (natToHexChar d) = false := by
  decide

theorem not_whitespace_of_upperHex {c : Char} (h : isUpperHexDigit c = true) :
    pythonWhitespace c = false := by
  by_contra hw
  rw [Bool.not_eq_false, pythonWhitespace] at hw
  simp only [Bool.or_eq_true, decide_eq_true_eq] at hw
  rcases hw with (((((h1 | h1) | h1) | h1) | h1) | h1) <;> subst h1 <;>
    exact absurd h (by decide)

/-! ### Byte decomposition and recomposition -/

theorem toBytesBE_zero (x : Nat) : toBytesBE x 0 = [] := rfl

theorem toBytesBE_succ (x n : Nat) :
    toBytesBE x (n + 1) = toBytesBE (x / 256) n ++ [x % 256] := by
  rw [toBytesBE, toBytesBE, List.range_succ, List.map_append, List.map_singleton]
  congr 1
  · apply List.map_congr_left
    intro i hi
    have hin : i < n := List.mem_range.mp hi
    have harith : 8 * (n + 1 - 1 - i) = 8 * (n - 1 - i) + 8 := by omega
    rw [harith, Nat.pow_add, Nat.mul_comm, ← Nat.div_div_eq_div_mul]
  · simp

theorem toBytesBE_mem_lt (x n : Nat) : ∀ b ∈ toBytesBE x n, b < 256 := by
  intro b hb
  rw [toBytesBE] at hb
  obtain ⟨i, _, rfl⟩ := List.mem_map.mp hb
  exact Nat.mod_lt _ (by norm_num)

theorem toBytesBE_foldl {n : Nat} : ∀ {x : Nat}, x < 2 ^ (8 * n) →
    (toBytesBE x n).foldl (fun acc b => 256 * acc + b) 0 = x := by
  induction n with
  | zero =>
    intro x hx
    interval_cases x
    rfl
  | succ n ih =>
    intro x hx
    have hdiv : x / 256 < 2 ^ (8 * n) := by
      rw [Nat.div_lt_iff_lt_mul (by norm_num)]
      calc x < 2 ^ (8 * (n + 1)) := hx
        _ = 2 ^ (8 * n) * 256 := by
          have h8 : 8 * (n + 1) = 8 * n + 8 := by ring
          rw [h8, Nat.pow_add]
    rw [toBytesBE_succ, List.foldl_append, ih hdiv]
    simp [Nat.div_add_mod]

/-! ### Hex string parsing -/

theorem parseHex_pairs_aux (bs : List Nat) (h : ∀ b ∈ bs, b < 256) :
    ∀ acc : Nat,
      ((bs.map byteToHexPair).flatten).foldl (fun acc c => 16 * acc + hexDigitValue c) acc =
        bs.foldl (fun acc b => 256 * acc + b) acc := by
  induction bs with
  | nil => intro acc; rfl
  | cons b t ih =>
    intro acc
    have hb : b < 256 := h b (List.mem_cons_self _ _)
    have hhi : b / 16 < 16 := by omega
    have hlo : b % 16 < 16 := Nat.mod_lt _ (by norm_num)
    rw [List.map_cons, List.flatten_cons, List.foldl_append]
    rw [byteToHexPair]
    simp only [List.foldl_cons, List.foldl_nil]
    rw [hexDigitValue_natToHexChar _ hhi, hexDigitValue_natToHexChar _ hlo]
    rw [ih (fun b hb => h b (List.mem_cons_of_mem _ hb))]
    congr 1
    have := Nat.div_add_mod b 16
    omega

theorem parseHex_pairs (bs : List Nat) (h : ∀ b ∈ bs, b < 256) :
    parseHex ((bs.map byteToHexPair).flatten) = bs.foldl (fun acc b => 256 * acc + b) 0 :=
  parseHex_pairs_aux bs h 0

/-! ### Joining and stripping wire strings -/

theorem sepChars_cons (q : List Char) (t : List (List Char)) :
    sepChars (q :: t) = ' ' :: (q ++ sepChars t) := by
  rw [sepChars, List.map_cons, List.flatten_cons, ← sepChars]
  simp

theorem joinWithSpaces_cons (p : List Char) (t : List (List Char)) :
    joinWithSpaces (p :: t) = p ++ sepChars t := by
  induction t generalizing p with
  | nil => simp [joinWithSpaces, sepChars]
  | cons q t ih =>
    rw [joinWithSpaces, List.intersperse_cons₂, List.flatten_cons, List.flatten_cons]
    have hq := ih q
    rw [joinWithSpaces] at hq
    rw [hq, sepChars_cons]
    simp

theorem sepChars_no_leading_ws_filter (t : List (List Char))
    (h : ∀ p ∈ t, ∀ c ∈ p, pythonWhitespace c = false) :
    (sepChars t).filter (fun c => !pythonWhitespace c) = t.flatten := by
  induction t with
  | nil => rfl
  | cons q t ih =>
    rw [sepChars_cons, List.flatten_cons, List.filter_cons]
    have hq : q.filter (fun c => !pythonWhitespace c) = q := by
      rw [List.filter_eq_self]
      intro c hc
      simp [h q (List.mem_cons_self _ _) c hc]
    have hsp : (!pythonWhitespace ' ') = false := by decide
    rw [hsp]
    simp only [Bool.false_eq_true, if_false]
    rw [List.filter_append, hq, ih (fun p hp => h p (List.mem_cons_of_mem _ hp))]

theorem stripWhitespace_join (tokens : List (List Char))
    (h : ∀ p ∈ tokens, ∀ c ∈ p, pythonWhitespace c = false) :
    stripWhitespace (joinWithSpaces tokens) = tokens.flatten := by
  cases tokens with
  | nil => rfl
  | cons p t =>
    rw [joinWithSpaces_cons, stripWhitespace, List.filter_append, List.flatten_cons]
    have hp : p.filter (fun c => !pythonWhitespace c) = p := by
      rw [List.filter_eq_self]
      intro c hc
      simp [h p (List.mem_cons_self _ _) c hc]
    rw [hp, sepChars_no_leading_ws_filter t (fun p hp => h p (List.mem_cons_of_mem _ hp))]

/-! ### The wire-string grammar -/

theorem restTokens_sepChars (t : List (List Char)) (h : ∀ q ∈ t, hexPairShape q) :
    restTokens t.length (sepChars t) = true := by
  induction t with
  | nil => rfl
  | cons q t ih =>
    obtain ⟨c, d, rfl, hc, hd⟩ := h q (List.mem_cons_self _ _)
    rw [sepChars_cons]
    show restTokens (t.length + 1) (' ' :: c :: d :: sepChars t) = true
    rw [restTokens]
    rw [hc, hd, ih (fun q hq => h q (List.mem_cons_of_mem _ hq))]
    simp

theorem trunkStringBody_join {tokens : List (List Char)} (h : wireTokens tokens) :
    trunkStringBody (joinWithSpaces tokens) = true := by
  obtain ⟨hlen, hshape⟩ := h
  cases tokens with
  | nil => exact absurd hlen (by decide)
  | cons p t =>
    obtain ⟨c, d, rfl, hc, hd⟩ := hshape p (List.mem_cons_self _ _)
    rw [joinWithSpaces_cons]
    show trunkStringBody (c :: d :: sepChars t) = true
    rw [trunkStringBody]
    have hlt : t.length = BYTES_PER_GROUP - 1 := by
      simp only [List.length_cons] at hlen
      have : BYTES_PER_GROUP = 128 := rfl
      omega
    rw [hc, hd, ← hlt, restTokens_sepChars t (fun q hq => hshape q (List.mem_cons_of_mem _ hq))]
    rfl

theorem restTokens_decomp : ∀ (n : Nat) (s : List Char), restTokens n s = true →
    ∃ t : List (List Char), t.length = n ∧ (∀ q ∈ t, hexPairShape q) ∧ s = sepChars t := by
  intro n
  induction n with
  | zero =>
    intro s hs
    rw [restTokens] at hs
    refine ⟨[], rfl, by simp, ?_⟩
    rw [List.isEmpty_iff.mp hs]
    rfl
  | succ n ih =>
    intro s hs
    cases s with
    | nil => simp [restTokens] at hs
    | cons c s1 =>
      cases s1 with
      | nil => simp [restTokens] at hs
      | cons a s2 =>
        cases s2 with
        | nil => simp [restTokens] at hs
        | cons b s' =>
          rw [restTokens] at hs
          simp only [Bool.and_eq_true, decide_eq_true_eq] at hs
          obtain ⟨⟨⟨hc, ha⟩, hb⟩, hrest⟩ := hs
          subst hc
          obtain ⟨t, htlen, htshape, rfl⟩ := ih s' hrest
          refine ⟨[a, b] :: t, by simp [htlen], ?_, ?_⟩
          · intro q hq
            rcases List.mem_cons.mp hq with rfl | hq
            · exact ⟨a, b, rfl, ha, hb⟩
            · exact htshape q hq
          · rw [sepChars_cons]
            rfl

theorem trunkStringBody_decomp {s : List Char} (hs : trunkStringBody s = true) :
    ∃ tokens : List (List Char), wireTokens tokens ∧ s = joinWithSpaces tokens := by
  cases s with
  | nil => simp [trunkStringBody] at hs
  | cons a s1 =>
    cases s1 with
    | nil => simp [trunkStringBody] at hs
    | cons b rest =>
      rw [trunkStringBody] at hs
      simp only [Bool.and_eq_true] at hs
      obtain ⟨⟨ha, hb⟩, hrest⟩ := hs
      obtain ⟨t, htlen, htshape, rfl⟩ := restTokens_decomp _ _ hrest
      refine ⟨[a, b] :: t, ⟨?_, ?_⟩, ?_⟩
      · simp only [List.length_cons, htlen]
        rfl
      · intro q hq
        rcases List.mem_cons.mp hq with rfl | hq
        · exact ⟨a, b, rfl, ha, hb⟩
        · exact htshape q hq
      · rw [joinWithSpaces_cons]
        rfl

/-- Acceptance of `is_valid_vlan_trunk_string`, characterized: exactly the
well-formed 128-token wire strings, optionally followed by one trailing
newline (a Python `$`-before-final-newline artifact). -/
theorem is_valid_chars (s : List Char) :
    is_valid_vlan_trunk_string s = true ↔
      ∃ tokens, wireTokens tokens ∧
        (s = joinWithSpaces tokens ∨ s = joinWithSpaces tokens ++ ['\n']) := by
  rw [is_valid_vlan_trunk_string]
  simp only [Bool.or_eq_true, Bool.and_eq_true, decide_eq_true_eq]
  constructor
  · rintro (hbody | ⟨hlast, hbody⟩)
    · obtain ⟨tokens, htok, rfl⟩ := trunkStringBody_decomp hbody
      exact ⟨tokens, htok, Or.inl rfl⟩
    · obtain ⟨ys, hys⟩ := List.getLast?_eq_some_iff.mp hlast
      subst hys
      rw [List.dropLast_concat] at hbody
      obtain ⟨tokens, htok, rfl⟩ := trunkStringBody_decomp hbody
      exact ⟨tokens, htok, Or.inr rfl⟩
  · rintro ⟨tokens, htok, rfl | rfl⟩
    · exact Or.inl (trunkStringBody_join htok)
    · refine Or.inr ⟨List.getLast?_concat _, ?_⟩
      rw [List.dropLast_concat]
      exact trunkStringBody_join htok

theorem byteToHexPair_shape {b : Nat} (hb : b < 256) : hexPairShape (byteToHexPair b) :=
  ⟨natToHexChar (b / 16), natToHexChar (b % 16), rfl,
    isUpperHexDigit_natToHexChar _ (by omega),
    isUpperHexDigit_natToHexChar _ (Nat.mod_lt _ (by norm_num))⟩

theorem wireTokens_of_bytes (x : Nat) :
    wireTokens ((toBytesBE x BYTES_PER_GROUP).map byteToHexPair) := by
  constructor
  · rw [List.length_map, toBytesBE, List.length_map, List.length_range]
  · intro q hq
    obtain ⟨b, hb, rfl⟩ := List.mem_map.mp hq
    exact byteToHexPair_shape (toBytesBE_mem_lt _ _ b hb)

/-- Every exported wire string passes the validity check. -/
theorem is_valid_export (st : VlanTrunkModeList) :
    is_valid_vlan_trunk_string st.get_vlan_trunk_string = true := by
  rw [VlanTrunkModeList.get_vlan_trunk_string, is_valid_vlan_trunk_string]
  rw [trunkStringBody_join (wireTokens_of_bytes _)]
  rfl

theorem hexPairShape_chars {q : List Char} (h : hexPairShape q) :
    ∀ c ∈ q, isUpperHexDigit c = true := by
  obtain ⟨a, b, rfl, ha, hb⟩ := h
  intro c hc
  rcases List.mem_cons.mp hc with rfl | hc
  · exact ha
  · rcases List.mem_cons.mp hc with rfl | hc
    · exact hb
    · exact absurd hc (List.not_mem_nil _)

/-- Stripping whitespace from an exported wire string leaves exactly its
hex digit characters. -/
theorem strip_export (tokens : List (List Char)) (h : ∀ q ∈ tokens, hexPairShape q) :
    stripWhitespace (joinWithSpaces tokens) = tokens.flatten :=
  stripWhitespace_join tokens
    (fun p hp c hc => not_whitespace_of_upperHex (hexPairShape_chars (h p hp) c hc))

/-- Decoding an exported wire string recovers the mask: the import pipeline
is a left inverse of the export pipeline below `2 ^ 1024`. -/
theorem decode_export {m : Nat} (g : Int) (hm : m < 2 ^ 1024) :
    decodeTrunkString (VlanTrunkModeList.get_vlan_trunk_string ⟨g, m⟩) = m := by
  have hgs : VLAN_GROUP_SIZE = 1024 := rfl
  have hr : reverse_bits m VLAN_GROUP_SIZE < 2 ^ 1024 := by
    rw [hgs]; exact reverse_bits_lt hm
  rw [decodeTrunkString, VlanTrunkModeList.get_vlan_trunk_string]
  rw [strip_export _ (wireTokens_of_bytes _).2]
  rw [parseHex_pairs _ (toBytesBE_mem_lt _ _)]
  have h8 : (8 : Nat) * BYTES_PER_GROUP = 1024 := rfl
  rw [toBytesBE_foldl (by rw [h8]; exact hr)]
  rw [hgs] at *
  exact reverse_bits_involution hm

/-! ### Bounds on decoded masks -/

theorem charToNat_le_of_le {a b : Char} (h : a ≤ b) : a.toNat ≤ b.toNat := by
  rw [Char.le_def, UInt32.le_def, BitVec.le_def] at h
  exact h

theorem hexDigitValue_lt (c : Char) : hexDigitValue c < 16 := by
  rw [hexDigitValue]
  split_ifs with h1 h2 h3
  · have hle := charToNat_le_of_le h1.2
    have h9 : ('9' : Char).toNat = 57 := rfl
    have h0 : ('0' : Char).toNat = 48 := rfl
    omega
  · have hle := charToNat_le_of_le h2.2
    have hF : ('F' : Char).toNat = 70 := rfl
    have hA : ('A' : Char).toNat = 65 := rfl
    omega
  · have hle := charToNat_le_of_le h3.2
    have hf : ('f' : Char).toNat = 102 := rfl
    have ha : ('a' : Char).toNat = 97 := rfl
    omega
  · norm_num

theorem parseHex_aux_lt (s : List Char) :
    ∀ acc : Nat, s.foldl (fun acc c => 16 * acc + hexDigitValue c) acc < (acc + 1) * 16 ^ s.length := by
  induction s with
  | nil =>
    intro acc
    simp
  | cons c t ih =>
    intro acc
    rw [List.foldl_cons]
    calc t.foldl (fun acc c => 16 * acc + hexDigitValue c) (16 * acc + hexDigitValue c)
        < (16 * acc + hexDigitValue c + 1) * 16 ^ t.length := ih _
      _ ≤ (acc + 1) * 16 ^ (c :: t).length := by
          rw [List.length_cons, pow_succ]
          have := hexDigitValue_lt c
          nlinarith [pow_pos (show 0 < 16 by norm_num) t.length]

theorem parseHex_lt (s : List Char) : parseHex s < 16 ^ s.length := by
  have := parseHex_aux_lt s 0
  simpa using this

theorem flatten_pairs_length (tokens : List (List Char)) (h : ∀ q ∈ tokens, hexPairShape q) :
    tokens.flatten.length = 2 * tokens.length := by
  induction tokens with
  | nil => rfl
  | cons q t ih =>
    rw [List.flatten_cons, List.length_append, List.length_cons,
      ih (fun q hq => h q (List.mem_cons_of_mem _ hq))]
    obtain ⟨a, b, rfl, -, -⟩ := h q (List.mem_cons_self _ _)
    simp
    ring

/-- The mask decoded from any accepted wire string fits in 1024 bits. -/
theorem decodeTrunkString_lt {s : List Char} (h : is_valid_vlan_trunk_string s = true) :
    decodeTrunkString s < 2 ^ 1024 := by
  obtain ⟨tokens, htok, hcase⟩ := (is_valid_chars s).mp h
  have hstrip : stripWhitespace s = tokens.flatten := by
    rcases hcase with rfl | rfl
    · exact strip_export tokens htok.2
    · rw [stripWhitespace, List.filter_append, ← stripWhitespace, strip_export tokens htok.2]
      simp [stripWhitespace, pythonWhitespace]
  have hlen : tokens.flatten.length = 256 := by
    rw [flatten_pairs_length tokens htok.2, htok.1]
    rfl
  have hparse : parseHex (stripWhitespace s) < 2 ^ 1024 := by
    rw [hstrip]
    have := parseHex_lt tokens.flatten
    rw [hlen] at this
    calc parseHex tokens.flatten < 16 ^ 256 := this
      _ = 2 ^ 1024 := by
        rw [show (16 : Nat) = 2 ^ 4 from rfl, ← pow_mul]
  rw [decodeTrunkString]
  have hgs : VLAN_GROUP_SIZE = 1024 := rfl
  rw [hgs]
  exact reverse_bits_lt hparse

/-! ### Canonical group membership -/

theorem canonical_repr {v g : Int} (h : group_for_vlan v = .ok g) :
    1 ≤ v ∧ v ≤ 4094 ∧ (v.toNat - 1) % 1024 < 1024 ∧
      v = (((v.toNat - 1) % 1024 : Nat) : Int) + 1 + 1024 * g := by
  obtain ⟨h1, h2, hg⟩ := group_for_vlan_ok_iff.mp h
  have hmod := Nat.div_add_mod (v.toNat - 1) 1024
  have hlt : (v.toNat - 1) % 1024 < 1024 := Nat.mod_lt _ (by norm_num)
  exact ⟨h1, h2, hlt, by subst hg; omega⟩

theorem vlan_in_group_of_canonical {v g : Int} (h : group_for_vlan v = .ok g) :
    vlan_in_group v g = true := by
  obtain ⟨h1, h2, hlt, hrepr⟩ := canonical_repr h
  rw [vlan_in_group_iff]
  omega

theorem vlan_bit_error {v : Int} (h : ¬(1 ≤ v ∧ v ≤ 4094)) :
    vlan_bit v = .error "Unexpected value for vlan_id" := by
  rw [vlan_bit, validate_vlan_error h]
  rfl

theorem vlan_bit_ok_iff {v : Int} {b : Nat} :
    vlan_bit v = .ok b ↔ 1 ≤ v ∧ v ≤ 4094 ∧ b = 2 ^ ((v.toNat - 1) % 1024) := by
  constructor
  · intro h
    by_cases hr : 1 ≤ v ∧ v ≤ 4094
    · rw [vlan_bit_eq hr.1 hr.2] at h
      injection h with h
      exact ⟨hr.1, hr.2, h.symm⟩
    · rw [vlan_bit_error hr] at h
      exact Except.noConfusion h
  · rintro ⟨h1, h2, rfl⟩
    exact vlan_bit_eq h1 h2

/-! ### Store operations -/

theorem add_vlan_ok_of {st : VlanTrunkModeList} {v : Int}
    (hin : vlan_in_group v st.group = true) {b : Nat} (hbit : vlan_bit v = .ok b) :
    st.add_vlan v = .ok { st with value := st.value ||| b } := by
  rw [VlanTrunkModeList.add_vlan, if_pos hin]
  show (vlan_bit v >>= _) = _
  rw [hbit]
  rfl

theorem add_vlan_ok_inv {st st' : VlanTrunkModeList} {v : Int}
    (h : st.add_vlan v = .ok st') :
    vlan_in_group v st.group = true ∧
      ∃ b, vlan_bit v = .ok b ∧ st' = { st with value := st.value ||| b } := by
  rw [VlanTrunkModeList.add_vlan] at h
  by_cases hin : vlan_in_group v st.group = true
  · rw [if_pos hin] at h
    refine ⟨hin, ?_⟩
    cases hbit : vlan_bit v with
    | error e =>
      rw [show (do let bit ← vlan_bit v
                   pure { st with value := st.value ||| bit } : Except String VlanTrunkModeList) =
            (vlan_bit v >>= fun bit => pure { st with value := st.value ||| bit }) from rfl,
        hbit] at h
      exact Except.noConfusion h
    | ok b =>
      rw [show (do let bit ← vlan_bit v
                   pure { st with value := st.value ||| bit } : Except String VlanTrunkModeList) =
            (vlan_bit v >>= fun bit => pure { st with value := st.value ||| bit }) from rfl,
        hbit] at h
      injection h with h
      exact ⟨b, rfl, h.symm⟩
  · rw [if_neg hin] at h
    exact Except.noConfusion h

theorem add_vlan_trunk_string_ok {st : VlanTrunkModeList} {s : List Char}
    (h : is_valid_vlan_trunk_string s = true) :
    st.add_vlan_trunk_string s = .ok { st with value := st.value ||| decodeTrunkString s } := by
  rw [VlanTrunkModeList.add_vlan_trunk_string, if_pos h]

/-! ### Masks accumulated by repeated `add_vlan` -/

theorem maskOfList_nil : maskOfList [] = 0 := rfl

theorem maskOfList_cons (v : Int) (t : List Int) :
    maskOfList (v :: t) = 2 ^ ((v.toNat - 1) % 1024) ||| maskOfList t := rfl

theorem maskOfList_testBit (l : List Int) (i : Nat) :
    (maskOfList l).testBit i = true ↔ ∃ v ∈ l, (v.toNat - 1) % 1024 = i := by
  induction l with
  | nil => simp [maskOfList_nil, Nat.zero_testBit]
  | cons v t ih =>
    rw [maskOfList_cons, Nat.testBit_or, Bool.or_eq_true, ih, Nat.testBit_two_pow]
    simp only [decide_eq_true_eq, List.mem_cons]
    constructor
    · rintro (h | ⟨u, hu, hq⟩)
      · exact ⟨v, Or.inl rfl, h⟩
      · exact ⟨u, Or.inr hu, hq⟩
    · rintro ⟨u, rfl | hu, hq⟩
      · exact Or.inl hq
      · exact Or.inr ⟨u, hu, hq⟩

theorem maskOfList_lt (l : List Int) : maskOfList l < 2 ^ 1024 := by
  induction l with
  | nil => exact Nat.two_pow_pos 1024
  | cons v t ih =>
    rw [maskOfList_cons]
    apply Nat.or_lt_two_pow _ ih
    exact Nat.pow_lt_pow_right (by norm_num) (Nat.mod_lt _ (by norm_num))

theorem addVlanList_ok {g : Int} {l : List Int} (h : ∀ v ∈ l, group_for_vlan v = .ok g) :
    ∀ m : Nat, addVlanList ⟨g, m⟩ l = .ok ⟨g, m ||| maskOfList l⟩ := by
  induction l with
  | nil =>
    intro m
    rw [addVlanList, maskOfList_nil, Nat.or_zero]
  | cons v t ih =>
    intro m
    have hv := h v (List.mem_cons_self _ _)
    obtain ⟨h1, h2, -⟩ := group_for_vlan_ok_iff.mp hv
    have hin : vlan_in_group v (⟨g, m⟩ : VlanTrunkModeList).group = true :=
      vlan_in_group_of_canonical hv
    have hbit : vlan_bit v = .ok (2 ^ ((v.toNat - 1) % 1024)) := vlan_bit_eq h1 h2
    rw [addVlanList, add_vlan_ok_of hin hbit]
    show addVlanList ⟨g, m ||| 2 ^ ((v.toNat - 1) % 1024)⟩ t = _
    rw [ih (fun u hu => h u (List.mem_cons_of_mem _ hu))]
    rw [maskOfList_cons, ← Nat.or_assoc]

set_option maxRecDepth 4096 in
/-- Listing the VLANs of the accumulated mask yields the added ids in
ascending order. -/
theorem vlans_sorted_eq {g : Int} {l : List Int} (hnd : l.Nodup)
    (h : ∀ v ∈ l, group_for_vlan v = .ok g) :
    bits_to_vlans (maskOfList l) g = .ok (l.insertionSort (· ≤ ·)) := by
  have hpair : ((List.range 1024).filter (fun b => (maskOfList l).testBit b)).Pairwise (· < ·) :=
    (List.pairwise_lt_range 1024).filter _
  have hLsort : (((List.range 1024).filter (fun b => (maskOfList l).testBit b)).map
      (fun (b : Nat) => ((b : Int) + 1 + 1024 * g))).Pairwise (· < ·) := by
    rw [List.pairwise_map]
    refine List.Pairwise.imp (fun {a b} hab => ?_) hpair
    show (a : Int) + 1 + 1024 * g < (b : Int) + 1 + 1024 * g
    omega
  have hLnodup : (((List.range 1024).filter (fun b => (maskOfList l).testBit b)).map
      (fun (b : Nat) => ((b : Int) + 1 + 1024 * g))).Nodup :=
    hLsort.imp (fun hab => ne_of_lt hab)
  have hmemL : ∀ x, x ∈ ((List.range 1024).filter (fun b => (maskOfList l).testBit b)).map
      (fun (b : Nat) => ((b : Int) + 1 + 1024 * g)) ↔ x ∈ l := by
    intro x
    rw [List.mem_map]
    constructor
    · rintro ⟨b, hb, rfl⟩
      obtain ⟨hbr, hbt⟩ := List.mem_filter.mp hb
      obtain ⟨u, hu, hub⟩ := (maskOfList_testBit l b).mp hbt
      obtain ⟨-, -, -, hrepr⟩ := canonical_repr (h u hu)
      rw [hub] at hrepr
      rwa [← hrepr]
    · intro hx
      obtain ⟨-, -, hlt, hrepr⟩ := canonical_repr (h x hx)
      refine ⟨(x.toNat - 1) % 1024, List.mem_filter.mpr ⟨List.mem_range.mpr hlt, ?_⟩, hrepr.symm⟩
      exact (maskOfList_testBit l _).mpr ⟨x, hx, rfl⟩
  have hs1 : (l.insertionSort (· ≤ ·)).Sorted (· ≤ ·) := List.sorted_insertionSort _ l
  have hp1 : List.Perm (l.insertionSort (· ≤ ·)) l := List.perm_insertionSort _ l
  have hn1 : (l.insertionSort (· ≤ ·)).Nodup := hp1.nodup_iff.mpr hnd
  have hperm : List.Perm (((List.range 1024).filter (fun b => (maskOfList l).testBit b)).map
      (fun (b : Nat) => ((b : Int) + 1 + 1024 * g))) (l.insertionSort (· ≤ ·)) :=
    (List.perm_ext_iff_of_nodup hLnodup hn1).mpr
      (fun x => by rw [hmemL x, hp1.mem_iff])
  have hlist := List.eq_of_perm_of_sorted hperm (hLsort.imp (fun hab => le_of_lt hab)) hs1
  rw [bits_to_vlans_eq, hlist]

theorem add_vlan_trunk_string_ok_inv {st st' : VlanTrunkModeList} {s : List Char}
    (h : st.add_vlan_trunk_string s = .ok st') :
    is_valid_vlan_trunk_string s = true ∧
      st' = { st with value := st.value ||| decodeTrunkString s } := by
  by_cases hv : is_valid_vlan_trunk_string s = true
  · rw [add_vlan_trunk_string_ok hv] at h
    injection h with h
    exact ⟨hv, h.symm⟩
  · rw [VlanTrunkModeList.add_vlan_trunk_string, if_neg hv] at h
    exact Except.noConfusion h

theorem remove_vlan_ok_inv {st st' : VlanTrunkModeList} {v : Int}
    (h : st.remove_vlan v = .ok st') :
    st' = st ∨ ∃ b, vlan_bit v = .ok b ∧ st' = { st with value := Nat.ldiff st.value b } := by
  rw [VlanTrunkModeList.remove_vlan] at h
  by_cases hin : vlan_in_group v st.group = true
  · rw [if_pos hin] at h
    right
    cases hbit : vlan_bit v with
    | error e =>
      rw [show (do let bit ← vlan_bit v
                   pure { st with value := Nat.ldiff st.value bit } :
              Except String VlanTrunkModeList) =
            (vlan_bit v >>= fun bit => pure { st with value := Nat.ldiff st.value bit }) from rfl,
        hbit] at h
      exact Except.noConfusion h
    | ok b =>
      rw [show (do let bit ← vlan_bit v
                   pure { st with value := Nat.ldiff st.value bit } :
              Except String VlanTrunkModeList) =
            (vlan_bit v >>= fun bit => pure { st with value := Nat.ldiff st.value bit }) from rfl,
        hbit] at h
      injection h with h
      exact ⟨b, rfl, h.symm⟩
  · rw [if_neg hin] at h
    injection h with h
    exact Or.inl h.symm

theorem ldiff_lt_two_pow {a b n : Nat} (ha : a < 2 ^ n) : Nat.ldiff a b < 2 ^ n := by
  apply Nat.lt_pow_two_of_testBit
  intro i hi
  rw [Nat.testBit_ldiff]
  have : a.testBit i = false :=
    Nat.testBit_lt_two_pow (Nat.lt_of_lt_of_le ha (Nat.pow_le_pow_right (by norm_num) hi))
  rw [this]
  rfl

theorem range_filter_decide_eq {n m : Nat} (h : m < n) :
    (List.range n).filter (fun b => decide (m = b)) = [m] := by
  induction n with
  | zero => omega
  | succ n ih =>
    rw [List.range_succ, List.filter_append]
    by_cases hm : m = n
    · subst hm
      have hnil : (List.range m).filter (fun b => decide (m = b)) = [] := by
        rw [List.filter_eq_nil_iff]
        intro a ha
        simp only [decide_eq_true_eq]
        have := List.mem_range.mp ha
        omega
      rw [hnil]
      simp
    · have hmn : m < n := by omega
      rw [ih hmn]
      have hsing : ([n].filter (fun b => decide (m = b))) = [] := by
        simp [hm]
      rw [hsing]
      simp

theorem reverse_bits_one : reverse_bits 1 VLAN_GROUP_SIZE = 2 ^ 1023 := by
  have h1 : natToBits 1 = [true] := by simpa using natToBits_two_pow 0
  rw [reverse_bits_eq, h1,
    show ([true] : List Bool).length = 1 from rfl,
    show ([true] : List Bool).reverse = [true] from rfl,
    show VLAN_GROUP_SIZE - 1 = 1023 from rfl,
    bitsToNat_append, bitsToNat_replicate_false, List.length_replicate]
  norm_num [bitsToNat_cons, bitsToNat_nil]

theorem toBytesBE_two_pow_1023 : toBytesBE (2 ^ 1023) 128 = 128 :: List.replicate 127 0 := by
  rw [toBytesBE, show (128 : Nat) = 127 + 1 from rfl, List.range_succ_eq_map,
    List.map_cons, List.map_map]
  rw [List.cons_eq_cons]
  constructor
  · rw [show 8 * (127 + 1 - 1 - 0) = 1016 from rfl,
      Nat.pow_div (by norm_num) (by norm_num)]
  · rw [show (fun i => 2 ^ 1023 / 2 ^ (8 * (127 + 1 - 1 - i)) % 256) ∘ Nat.succ =
        (fun i => 2 ^ 1023 / 2 ^ (8 * (126 - i)) % 256) from by
      funext i
      have harg : 127 + 1 - 1 - Nat.succ i = 126 - i := by omega
      simp only [Function.comp]
      rw [harg]]
    rw [List.map_congr_left (g := fun _ => (0 : Nat)) ?side, List.map_const']
    · simp
    case side =>
      intro i hi
      have hin : i < 127 := List.mem_range.mp hi
      have he : 8 * (126 - i) ≤ 1023 := by omega
      rw [Nat.pow_div he (by norm_num)]
      apply Nat.mod_eq_zero_of_dvd
      rw [show (256 : Nat) = 2 ^ 8 from rfl]
      exact pow_dvd_pow 2 (by omega)

/-! ### Claim theorems -/

/-- C1: for every group `g` in `{0,1,2,3}` and every subset `S` of the VLAN
ids canonically belonging to `g`, adding each element of `S` to an empty
store for `g`, exporting the wire string, and importing it into a fresh
empty store for `g` yields a store whose `vlans` listing equals `S` sorted
ascending. -/
theorem claim_C1_round_trip (g : Int) (hg : g = 0 ∨ g = 1 ∨ g = 2 ∨ g = 3)
    (S : List Int) (hnd : S.Nodup) (hmem : ∀ v ∈ S, group_for_vlan v = .ok g) :
    ∃ st₁ st₂ : VlanTrunkModeList,
      addVlanList (VlanTrunkModeList.mk0 g) S = .ok st₁ ∧
      (VlanTrunkModeList.mk0 g).add_vlan_trunk_string st₁.get_vlan_trunk_string = .ok st₂ ∧
      st₂.vlans = .ok (S.insertionSort (· ≤ ·)) := by
  refine ⟨(⟨g, maskOfList S⟩ : VlanTrunkModeList), (⟨g, maskOfList S⟩ : VlanTrunkModeList),
    ?_, ?_, ?_⟩
  · have h := addVlanList_ok hmem 0
    rw [Nat.zero_or] at h
    exact h
  · have hv : is_valid_vlan_trunk_string
        (VlanTrunkModeList.get_vlan_trunk_string ⟨g, maskOfList S⟩) = true :=
      is_valid_export _
    rw [add_vlan_trunk_string_ok hv]
    show Except.ok (⟨g, 0 ||| decodeTrunkString
      (VlanTrunkModeList.get_vlan_trunk_string ⟨g, maskOfList S⟩)⟩ : VlanTrunkModeList) = _
    rw [decode_export g (maskOfList_lt S), Nat.zero_or]
  · show bits_to_vlans (maskOfList S) g = _
    exact vlans_sorted_eq hnd hmem

theorem claim_C1_witness :
    ((0 : Int) = 0 ∨ (0 : Int) = 1 ∨ (0 : Int) = 2 ∨ (0 : Int) = 3) ∧
    ([(1 : Int)].Nodup) ∧
    (∀ v ∈ [(1 : Int)], group_for_vlan v = .ok 0) ∧
    ∃ st₁ st₂ : VlanTrunkModeList,
      addVlanList (VlanTrunkModeList.mk0 0) [(1 : Int)] = .ok st₁ ∧
      (VlanTrunkModeList.mk0 0).add_vlan_trunk_string st₁.get_vlan_trunk_string = .ok st₂ ∧
      st₂.vlans = .ok ([(1 : Int)].insertionSort (· ≤ ·)) := by
  have hmem : ∀ v ∈ [(1 : Int)], group_for_vlan v = .ok 0 := by
    intro v hv
    rw [List.mem_singleton] at hv
    subst hv
    have h := group_for_vlan_eq (v := 1) (by norm_num) (by norm_num)
    simpa using h
  exact ⟨by norm_num, by simp, hmem, claim_C1_round_trip 0 (by norm_num) [1] (by simp) hmem⟩

/-- C2 (amended): `is_valid_vlan_trunk_string` accepts exactly the strings
of 128 uppercase two-digit hex tokens separated by single spaces,
*optionally followed by one trailing newline* (Python's `$` matches just
before a final newline), and `add_vlan_trunk_string` succeeds exactly on
the accepted strings. -/
theorem claim_C2_amended (s : List Char) :
    (is_valid_vlan_trunk_string s = true ↔
      ∃ tokens, wireTokens tokens ∧
        (s = joinWithSpaces tokens ∨ s = joinWithSpaces tokens ++ ['\n'])) ∧
    ∀ st : VlanTrunkModeList,
      (∃ st', st.add_vlan_trunk_string s = .ok st') ↔
        is_valid_vlan_trunk_string s = true := by
  refine ⟨is_valid_chars s, fun st => ⟨?_, ?_⟩⟩
  · rintro ⟨st', h⟩
    exact (add_vlan_trunk_string_ok_inv h).1
  · intro h
    exact ⟨_, add_vlan_trunk_string_ok h⟩

/-- C2 (counterexample): the all-zero wire string with one trailing newline
has trailing whitespace and is nevertheless accepted. -/
theorem claim_C2_counterexample :
    is_valid_vlan_trunk_string (zeroWireString ++ ['\n']) = true ∧
    (zeroWireString ++ ['\n']).getLast? = some '\n' := by
  constructor
  · apply (is_valid_chars _).mpr
    refine ⟨List.replicate BYTES_PER_GROUP ['0', '0'], ⟨?_, ?_⟩, Or.inr rfl⟩
    · rw [List.length_replicate]
    · intro q hq
      rw [List.eq_of_mem_replicate hq]
      exact ⟨'0', '0', rfl, by decide, by decide⟩
  · exact List.getLast?_concat _

/-- C3: for every VLAN id `v` in `[1, 4094]`, `group_for_vlan` returns a
group in `{0,1,2,3}` without failing, and the returned group satisfies the
membership predicate `0 ≤ v - g * 1024 ≤ 1024`. -/
theorem claim_C3_group_of (v : Int) (h1 : 1 ≤ v) (h2 : v ≤ 4094) :
    ∃ g : Int, group_for_vlan v = .ok g ∧ (g = 0 ∨ g = 1 ∨ g = 2 ∨ g = 3) ∧
      vlan_in_group v g = true ∧ 0 ≤ v - g * 1024 ∧ v - g * 1024 ≤ 1024 := by
  have hgv := group_for_vlan_eq h1 h2
  obtain ⟨-, -, hlt, hrepr⟩ := canonical_repr hgv
  have hle := group_index_le h1 h2
  refine ⟨_, hgv, ?_, vlan_in_group_of_canonical hgv, ?_, ?_⟩
  · omega
  · omega
  · omega

theorem claim_C3_witness :
    (1 : Int) ≤ 2000 ∧ (2000 : Int) ≤ 4094 ∧
    ∃ g : Int, group_for_vlan 2000 = .ok g ∧ (g = 0 ∨ g = 1 ∨ g = 2 ∨ g = 3) ∧
      vlan_in_group 2000 g = true ∧ 0 ≤ 2000 - g * 1024 ∧ 2000 - g * 1024 ≤ 1024 :=
  ⟨by norm_num, by norm_num, claim_C3_group_of 2000 (by norm_num) (by norm_num)⟩

/-- C4: for every VLAN id `v` in `[1, 4094]`, the single-bit value computed
by `vlan_bit` (the bit at index `v - group * 1024 - 1`) is mapped back to
`v` by `bit_to_vlan` at the canonical group. -/
theorem claim_C4_inverse (v : Int) (h1 : 1 ≤ v) (h2 : v ≤ 4094) :
    ∃ (g : Int) (b : Nat), group_for_vlan v = .ok g ∧ vlan_bit v = .ok b ∧
      b = 2 ^ ((v.toNat - 1) % 1024) ∧ bit_to_vlan b g = .ok v := by
  refine ⟨_, _, group_for_vlan_eq h1 h2, vlan_bit_eq h1 h2, rfl, ?_⟩
  rw [bit_to_vlan_two_pow]
  obtain ⟨-, -, hlt, hrepr⟩ := canonical_repr (group_for_vlan_eq h1 h2)
  exact congrArg Except.ok hrepr.symm

theorem claim_C4_witness :
    (1 : Int) ≤ 1500 ∧ (1500 : Int) ≤ 4094 ∧
    ∃ (g : Int) (b : Nat), group_for_vlan 1500 = .ok g ∧ vlan_bit 1500 = .ok b ∧
      b = 2 ^ (((1500 : Int).toNat - 1) % 1024) ∧ bit_to_vlan b g = .ok 1500 :=
  ⟨by norm_num, by norm_num, claim_C4_inverse 1500 (by norm_num) (by norm_num)⟩

/-- C5: the whole-field bit reversal at width 1024 is an involution on
`[0, 2 ^ 1024)`. -/
theorem claim_C5_involution (x : Nat) (h : x < 2 ^ 1024) :
    reverse_bits (reverse_bits x 1024) 1024 = x :=
  reverse_bits_involution h

theorem claim_C5_witness :
    (5 : Nat) < 2 ^ 1024 ∧ reverse_bits (reverse_bits 5 1024) 1024 = 5 :=
  ⟨by norm_num, claim_C5_involution 5 (by norm_num)⟩

/-- C6: importing an accepted wire string unions the decoded mask into the
store's mask by bitwise or: the result is exactly `old ||| decoded`, the
group is unchanged, and every previously set bit stays set. -/
theorem claim_C6_union (st : VlanTrunkModeList) (s : List Char)
    (h : is_valid_vlan_trunk_string s = true) :
    ∃ st', st.add_vlan_trunk_string s = .ok st' ∧
      st'.value = st.value ||| decodeTrunkString s ∧
      st'.group = st.group ∧
      ∀ i, st.value.testBit i = true → st'.value.testBit i = true := by
  refine ⟨_, add_vlan_trunk_string_ok h, rfl, rfl, ?_⟩
  intro i hi
  show (st.value ||| decodeTrunkString s).testBit i = true
  rw [Nat.testBit_or, hi]
  rfl

theorem claim_C6_witness :
    is_valid_vlan_trunk_string zeroWireString = true ∧
    ∃ st', (⟨0, 5⟩ : VlanTrunkModeList).add_vlan_trunk_string zeroWireString = .ok st' ∧
      st'.value = (⟨0, 5⟩ : VlanTrunkModeList).value ||| decodeTrunkString zeroWireString ∧
      st'.group = (⟨0, 5⟩ : VlanTrunkModeList).group ∧
      ∀ i, (⟨0, 5⟩ : VlanTrunkModeList).value.testBit i = true →
        st'.value.testBit i = true := by
  have hv : is_valid_vlan_trunk_string zeroWireString = true := by
    apply (is_valid_chars _).mpr
    refine ⟨List.replicate BYTES_PER_GROUP ['0', '0'], ⟨?_, ?_⟩, Or.inl rfl⟩
    · rw [List.length_replicate]
    · intro q hq
      rw [List.eq_of_mem_replicate hq]
      exact ⟨'0', '0', rfl, by decide, by decide⟩
  exact ⟨hv, claim_C6_union ⟨0, 5⟩ zeroWireString hv⟩

/-- C7: removing a VLAN id that is not a member of the store's group
(`v - g * 1024` outside `[0, 1024]`) is a silent no-op: it returns without
error and leaves the store unchanged. -/
theorem claim_C7_remove_noop (st : VlanTrunkModeList) (v : Int)
    (h : ¬(0 ≤ v - st.group * 1024 ∧ v - st.group * 1024 ≤ 1024)) :
    st.remove_vlan v = .ok st := by
  have hfalse : ¬(vlan_in_group v st.group = true) := by
    rw [vlan_in_group_iff]
    omega
  rw [VlanTrunkModeList.remove_vlan, if_neg hfalse]
  rfl

theorem claim_C7_witness :
    ¬(0 ≤ (2000 : Int) - (⟨0, 7⟩ : VlanTrunkModeList).group * 1024 ∧
        (2000 : Int) - (⟨0, 7⟩ : VlanTrunkModeList).group * 1024 ≤ 1024) ∧
    (⟨0, 7⟩ : VlanTrunkModeList).remove_vlan 2000 = .ok ⟨0, 7⟩ :=
  ⟨by decide, claim_C7_remove_noop ⟨0, 7⟩ 2000 (by decide)⟩

/-- C8: for `g` in `{1,2,3}`, adding the boundary id `g * 1024` directly to
the store for group `g` succeeds, `has_vlan (g * 1024)` is true afterwards,
yet the listing reports `(g + 1) * 1024`: the bit index is computed with
respect to the canonical lower group, so bit 1023 of store `g` is set. -/
theorem claim_C8_boundary (g : Int) (hg : g = 1 ∨ g = 2 ∨ g = 3) :
    ∃ st : VlanTrunkModeList,
      (VlanTrunkModeList.mk0 g).add_vlan (g * 1024) = .ok st ∧
      st.has_vlan (g * 1024) = .ok true ∧
      st.vlans = .ok [(g + 1) * 1024] := by
  have hgb : 1 ≤ g ∧ g ≤ 3 := by rcases hg with rfl | rfl | rfl <;> norm_num
  have h1 : 1 ≤ g * 1024 := by omega
  have h2 : g * 1024 ≤ 4094 := by omega
  have hk : ((g * 1024).toNat - 1) % 1024 = 1023 := by
    have htn : (g * 1024).toNat = 1024 * g.toNat := by omega
    have hg1 : 1 ≤ g.toNat := by omega
    omega
  have hbit : vlan_bit (g * 1024) = .ok (2 ^ 1023) := by
    rw [vlan_bit_eq h1 h2, hk]
  have hin : vlan_in_group (g * 1024) (VlanTrunkModeList.mk0 g).group = true := by
    show vlan_in_group (g * 1024) g = true
    rw [vlan_in_group_iff]
    omega
  refine ⟨(⟨g, 2 ^ 1023⟩ : VlanTrunkModeList), ?_, ?_, ?_⟩
  · rw [add_vlan_ok_of hin hbit]
    show Except.ok (⟨g, 0 ||| 2 ^ 1023⟩ : VlanTrunkModeList) = _
    rw [Nat.zero_or]
  · rw [VlanTrunkModeList.has_vlan]
    show (vlan_bit (g * 1024) >>= _) = _
    rw [hbit]
    show Except.ok (decide ¬((2 : Nat) ^ 1023 &&& 2 ^ 1023 = 0)) = .ok true
    have hpos : (2 : Nat) ^ 1023 ≠ 0 := (Nat.two_pow_pos 1023).ne'
    simp [Nat.and_self, hpos]
  · show bits_to_vlans (2 ^ 1023) g = _
    rw [bits_to_vlans_eq]
    have hf : (fun b => (2 ^ 1023 : Nat).testBit b) = (fun b => decide (1023 = b)) := by
      funext b
      exact Nat.testBit_two_pow
    rw [hf, range_filter_decide_eq (by norm_num)]
    have hval : ((1023 : Nat) : Int) + 1 + 1024 * g = (g + 1) * 1024 := by
      push_cast
      ring
    rw [List.map_singleton, hval]

theorem claim_C8_witness :
    ((1 : Int) = 1 ∨ (1 : Int) = 2 ∨ (1 : Int) = 3) ∧
    ∃ st : VlanTrunkModeList,
      (VlanTrunkModeList.mk0 1).add_vlan (1 * 1024) = .ok st ∧
      st.has_vlan (1 * 1024) = .ok true ∧
      st.vlans = .ok [((1 : Int) + 1) * 1024] :=
  ⟨by norm_num, claim_C8_boundary 1 (by norm_num)⟩

/-- C9: starting from the zero mask, every store operation keeps the mask
strictly below `2 ^ 1024`: no bit outside `[0, 1023]` is ever set. -/
theorem claim_C9_mask_width (st : VlanTrunkModeList) (hst : st.value < 2 ^ 1024) :
    (VlanTrunkModeList.mk0 st.group).value < 2 ^ 1024 ∧
    (∀ v st', st.add_vlan v = .ok st' → st'.value < 2 ^ 1024) ∧
    (∀ s st', st.add_vlan_trunk_string s = .ok st' → st'.value < 2 ^ 1024) ∧
    (∀ v st', st.remove_vlan v = .ok st' → st'.value < 2 ^ 1024) := by
  refine ⟨Nat.two_pow_pos 1024, ?_, ?_, ?_⟩
  · intro v st' h
    obtain ⟨-, b, hbit, rfl⟩ := add_vlan_ok_inv h
    obtain ⟨-, -, rfl⟩ := vlan_bit_ok_iff.mp hbit
    show st.value ||| 2 ^ ((v.toNat - 1) % 1024) < 2 ^ 1024
    exact Nat.or_lt_two_pow hst
      (Nat.pow_lt_pow_right (by norm_num) (Nat.mod_lt _ (by norm_num)))
  · intro s st' h
    obtain ⟨hv, rfl⟩ := add_vlan_trunk_string_ok_inv h
    show st.value ||| decodeTrunkString s < 2 ^ 1024
    exact Nat.or_lt_two_pow hst (decodeTrunkString_lt hv)
  · intro v st' h
    rcases remove_vlan_ok_inv h with rfl | ⟨b, -, rfl⟩
    · exact hst
    · show Nat.ldiff st.value b < 2 ^ 1024
      exact ldiff_lt_two_pow hst

theorem claim_C9_witness :
    (⟨0, 3⟩ : VlanTrunkModeList).value < 2 ^ 1024 ∧
    ((VlanTrunkModeList.mk0 (⟨0, 3⟩ : VlanTrunkModeList).group).value < 2 ^ 1024 ∧
    (∀ v st', (⟨0, 3⟩ : VlanTrunkModeList).add_vlan v = .ok st' → st'.value < 2 ^ 1024) ∧
    (∀ s st', (⟨0, 3⟩ : VlanTrunkModeList).add_vlan_trunk_string s = .ok st' →
      st'.value < 2 ^ 1024) ∧
    (∀ v st', (⟨0, 3⟩ : VlanTrunkModeList).remove_vlan v = .ok st' →
      st'.value < 2 ^ 1024)) :=
  ⟨by norm_num, claim_C9_mask_width ⟨0, 3⟩ (by norm_num)⟩

/-- C10: for every group `g` in `{0,1,2,3}`, adding the group's first member
`g * 1024 + 1` to an empty store and exporting yields the wire string whose
first token is `"80"` and whose remaining 127 tokens are all `"00"`. -/
theorem claim_C10_wire_order (g : Int) (hg : g = 0 ∨ g = 1 ∨ g = 2 ∨ g = 3) :
    ∃ st : VlanTrunkModeList,
      (VlanTrunkModeList.mk0 g).add_vlan (g * 1024 + 1) = .ok st ∧
      st.get_vlan_trunk_string = ['8', '0'] ++ sepChars (List.replicate 127 ['0', '0']) := by
  have hgb : 0 ≤ g ∧ g ≤ 3 := by rcases hg with rfl | rfl | rfl | rfl <;> norm_num
  have h1 : 1 ≤ g * 1024 + 1 := by omega
  have h2 : g * 1024 + 1 ≤ 4094 := by omega
  have hk : ((g * 1024 + 1).toNat - 1) % 1024 = 0 := by
    have htn : (g * 1024 + 1).toNat = 1024 * g.toNat + 1 := by omega
    omega
  have hbit : vlan_bit (g * 1024 + 1) = .ok 1 := by
    rw [vlan_bit_eq h1 h2, hk]
    rfl
  have hin : vlan_in_group (g * 1024 + 1) (VlanTrunkModeList.mk0 g).group = true := by
    show vlan_in_group (g * 1024 + 1) g = true
    rw [vlan_in_group_iff]
    omega
  refine ⟨(⟨g, 1⟩ : VlanTrunkModeList), ?_, ?_⟩
  · rw [add_vlan_ok_of hin hbit]
    show Except.ok (⟨g, 0 ||| 1⟩ : VlanTrunkModeList) = _
    rw [Nat.zero_or]
  · show joinWithSpaces
        ((toBytesBE (reverse_bits 1 VLAN_GROUP_SIZE) BYTES_PER_GROUP).map byteToHexPair) = _
    rw [reverse_bits_one, show BYTES_PER_GROUP = 128 from rfl, toBytesBE_two_pow_1023,
      List.map_cons, List.map_replicate,
      show byteToHexPair 128 = ['8', '0'] from rfl,
      show byteToHexPair 0 = ['0', '0'] from rfl]
    exact joinWithSpaces_cons _ _

theorem claim_C10_witness :
    ((0 : Int) = 0 ∨ (0 : Int) = 1 ∨ (0 : Int) = 2 ∨ (0 : Int) = 3) ∧
    ∃ st : VlanTrunkModeList,
      (VlanTrunkModeList.mk0 0).add_vlan (0 * 1024 + 1) = .ok st ∧
      st.get_vlan_trunk_string = ['8', '0'] ++ sepChars (List.replicate 127 ['0', '0']) :=
  ⟨by norm_num, claim_C10_wire_order 0 (by norm_num)⟩

end SnmpVlanTrunk
